import Mathlib

/-
Verification of the neural POS-tagging/lemmatization model architecture in
`src/pos/model.py` (classes `ClassingWordEmbedding`, `GRUDecoder`, `Tagger`,
`Encoder`, and the helpers `pack_sequence` / `unpack_sequence`).

Modelling conventions:
* Tensors are nested lists over `ℚ` (float semantics idealized to exact
  rationals); a 3-d tensor of shape (b, s, f) is a `List (List (List ℚ))`.
* Learned weights and the wrapped torch building blocks (`nn.GRU`, `nn.LSTM`,
  `nn.Linear`, `nn.Dropout`, `nn.Embedding` lookup) are parameters: they are
  passed in as explicit functions, exactly as the Python modules carry them as
  attributes.  Their shape contracts appear as hypotheses where a theorem
  needs them.
* `random.random()` draws are threaded in as an explicit list of rationals in
  [0, 1); the Python condition `random.random() < teacher_forcing` becomes
  `draw < teacherForcing`.
* Python code that raises is modelled with `Except String`; in particular the
  truthiness test `if embs:` on a torch tensor raises a RuntimeError unless
  the tensor has exactly one element, which `tensorBool` models.
-/

/-- Vocabulary mapping of `pos.core.VocabMap` (not under `src/`): symbol/index
maps with the four reserved indices PAD, UNK, SOS, EOS.  `w2i` is the
character-level lookup already composed with the UNK fallback that the spec
requires of every preprocessing path, so it is total; `i2w` is the
index-to-symbol direction used by the decoders. -/
structure VocabMap where
  w2i : Char → Nat
  i2w : Nat → String
  PAD_ID : Nat
  UNK_ID : Nat
  SOS_ID : Nat
  EOS_ID : Nat
  EOS : String

/-- Auxiliary loop for `argmaxIdx`: carries the best index and value so far. -/
def argmaxGo (bi : Nat) (bv : ℚ) (i : Nat) : List ℚ → Nat
  | [] => bi
  | y :: ys => if bv < y then argmaxGo i y (i + 1) ys else argmaxGo bi bv (i + 1) ys

/-- Model of `torch.argmax` along the last axis for one vector: the index of
the first occurrence of the maximal value (0 on the empty vector, which torch
rejects; no theorem relies on that case). -/
def argmaxIdx : List ℚ → Nat
  | [] => 0
  | x :: xs => argmaxGo 0 x 1 xs

/-- Maximum of a list of naturals (0 for the empty list), used for the padded
sequence length `max(lengths)`. -/
def maxNat (l : List Nat) : Nat := l.foldr max 0

/-- Model of `pos.model.Tagger.postprocess` (model.py lines 476-491):
argmax over the class axis, map indices to symbols through `i2w`, and keep
only the first `lengths[sent_idx]` positions of each sentence.  Python raises
an IndexError when `sent_idx` is out of range of `lengths`; the `getD`
default 0 is only reachable in that case, which every theorem excludes. -/
def Tagger.postprocess (vm : VocabMap) (logits : List (List (List ℚ)))
    (lengths : List Nat) : List (List String) :=
  let idxs := logits.map (fun sent => sent.map argmaxIdx)
  idxs.enum.map (fun p =>
    ((p.2.enum.filter (fun q => q.1 < lengths.getD p.1 0)).map (fun q => vm.i2w q.2)))

theorem enumFrom_filter_lt_map {α β : Type} (g : α → β) :
    ∀ (l : List α) (k n : Nat),
      ((List.enumFrom k l).filter (fun q => decide (q.1 < k + n))).map (fun q => g q.2) =
        (l.take n).map g := by
  intro l
  induction l with
  | nil => intro k n; simp
  | cons a l ih =>
    intro k n
    cases n with
    | zero =>
      simp only [List.enumFrom_cons, List.filter_cons, Nat.add_zero, List.take_zero,
        List.map_nil]
      have hk : decide (k < k) = false := by simp
      rw [hk]
      have hnil : (List.enumFrom (k + 1) l).filter (fun q => decide (q.1 < k)) = [] := by
        refine List.filter_eq_nil_iff.mpr ?_
        intro q hq
        obtain ⟨qi, qa⟩ := q
        have hk' : k + 1 ≤ qi := (List.mem_enumFrom hq).1
        simp only [decide_eq_true_eq]
        omega
      rw [hnil]
      simp
    | succ m =>
      have hrw : (fun q : Nat × α => decide (q.1 < k + (m + 1))) =
          (fun q : Nat × α => decide (q.1 < (k + 1) + m)) := by
        funext q
        simp only [decide_eq_decide]
        omega
      rw [List.enumFrom_cons, List.filter_cons, hrw]
      have hklt : (k, a).1 < k + (m + 1) := by
        show k < k + (m + 1)
        omega
      rw [decide_eq_true hklt, if_pos rfl]
      simp only [List.take_succ_cons, List.map_cons, ih (k + 1) m]

theorem enum_filter_lt_map {α β : Type} (g : α → β) (l : List α) (n : Nat) :
    ((l.enum.filter (fun q => decide (q.1 < n))).map (fun q => g q.2)) = (l.take n).map g := by
  have h := enumFrom_filter_lt_map g l 0 n
  rw [Nat.zero_add] at h
  exact h

/-- C3 supporting fact: each output sentence of `Tagger.postprocess` equals
the truncated arg-max/`i2w` image of the corresponding input sentence. -/
theorem tagger_postprocess_getElem (vm : VocabMap) (logits : List (List (List ℚ)))
    (lengths : List Nat) (i : Nat) (hi : i < logits.length) :
    (Tagger.postprocess vm logits lengths)[i]? =
      some ((((logits[i]?.getD []).take (lengths.getD i 0)).map
        (fun tok => vm.i2w (argmaxIdx tok)))) := by
  unfold Tagger.postprocess
  have hidx : (logits.map (fun sent => sent.map argmaxIdx))[i]? =
      some ((logits[i]?.getD []).map argmaxIdx) := by
    rw [List.getElem?_map, List.getElem?_eq_getElem hi]
    simp
  rw [List.getElem?_map, List.getElem?_enum, hidx]
  simp only [Option.map_some']
  congr 1
  rw [enum_filter_lt_map vm.i2w ((logits[i]?.getD []).map argmaxIdx) (lengths.getD i 0)]
  simp only [List.map_take, List.map_map]
  rfl

/-- C3: for a batch of logits with `lengths.length` equal to the batch size
and `lengths[i] ≤` the sentence dimension, `Tagger.postprocess` returns one
tag sequence per sentence in input order; sentence `i` holds exactly
`lengths[i]` tags (positions past `lengths[i]` are discarded), and every tag
is `i2w` of the per-token arg-max index. -/
theorem tagger_postprocess_spec (vm : VocabMap) (logits : List (List (List ℚ)))
    (lengths : List Nat)
    (hlen : lengths.length = logits.length)
    (hbound : ∀ i, i < logits.length → lengths.getD i 0 ≤ (logits[i]?.getD []).length) :
    (Tagger.postprocess vm logits lengths).length = logits.length ∧
    ∀ i, i < logits.length →
      (Tagger.postprocess vm logits lengths)[i]?.getD [] =
          ((logits[i]?.getD []).take (lengths.getD i 0)).map
            (fun tok => vm.i2w (argmaxIdx tok)) ∧
        ((Tagger.postprocess vm logits lengths)[i]?.getD []).length = lengths.getD i 0 := by
  constructor
  · unfold Tagger.postprocess
    simp
  · intro i hi
    have h := tagger_postprocess_getElem vm logits lengths i hi
    rw [h]
    refine ⟨rfl, ?_⟩
    simp only [Option.getD_some, List.length_map, List.length_take]
    exact Nat.min_eq_left (hbound i hi)

/-- Witness for C3 at a concrete batch: two sentences of padded length 3 and
2 with true lengths 2 and 1. -/
theorem tagger_postprocess_spec_witness :
    (Tagger.postprocess ⟨fun _ => 0, fun i => toString i, 0, 1, 2, 3, "EOS"⟩
        [[[1, 2], [3, 1], [0, 5]], [[2, 0], [1, 1]]] [2, 1]).length = 2 ∧
    ∀ i, i < 2 →
      (Tagger.postprocess ⟨fun _ => 0, fun i => toString i, 0, 1, 2, 3, "EOS"⟩
          [[[1, 2], [3, 1], [0, 5]], [[2, 0], [1, 1]]] [2, 1])[i]?.getD [] =
          ((([[[1, 2], [3, 1], [0, 5]], [[2, 0], [1, 1]]] :
              List (List (List ℚ)))[i]?.getD []).take (([2, 1] : List Nat).getD i 0)).map
            (fun tok => (toString (argmaxIdx tok))) ∧
        ((Tagger.postprocess ⟨fun _ => 0, fun i => toString i, 0, 1, 2, 3, "EOS"⟩
            [[[1, 2], [3, 1], [0, 5]], [[2, 0], [1, 1]]] [2, 1])[i]?.getD []).length =
          ([2, 1] : List Nat).getD i 0 :=
  tagger_postprocess_spec ⟨fun _ => 0, fun i => toString i, 0, 1, 2, 3, "EOS"⟩
    [[[1, 2], [3, 1], [0, 5]], [[2, 0], [1, 1]]] [2, 1] (by decide) (by decide)

/-- C9: `Tagger.postprocess` is deterministic and free of side effects on its
inputs; its shallow embedding is a pure function, so two runs on the same
logits and lengths produce identical tag tuples. -/
theorem tagger_postprocess_deterministic (vm : VocabMap)
    (logits : List (List (List ℚ))) (lengths : List Nat) :
    Tagger.postprocess vm logits lengths = Tagger.postprocess vm logits lengths := rfl

/-- The set `GRUDecoder.illegal_chars_output` (model.py lines 324-328):
SOS, PAD and UNK indices, in construction order. -/
def illegalCharsOutput (vm : VocabMap) : List Nat := [vm.SOS_ID, vm.PAD_ID, vm.UNK_ID]

/-- Model of `GRUDecoder.map_lemma_from_char_idx` (model.py lines 341-352):
keep only indices outside the illegal set, map them through `i2w`, cut at the
first EOS symbol when one is present (Python `list.index` is `findIdx`), and
join the remaining characters into the lemma string. -/
def GRUDecoder.mapLemmaFromCharIdx (vm : VocabMap) (charIdxs : List Nat) : String :=
  let chars := (charIdxs.filter (fun c => decide (¬ c ∈ illegalCharsOutput vm))).map vm.i2w
  let cut := if vm.EOS ∈ chars
    then chars.take (chars.findIdx (fun s => decide (s = vm.EOS)))
    else chars
  String.join cut

/-- Model of `GRUDecoder.map_sentence_chars` (model.py lines 354-361): one
lemma per token position below the sentence length.  Python indexing
`sent[tok_num]` raises when out of range; the `getD` default is unreachable
under the shape hypotheses of the theorems. -/
def GRUDecoder.mapSentenceChars (vm : VocabMap) (sent : List (List Nat))
    (sentLength : Nat) : List String :=
  (List.range sentLength).map
    (fun tokNum => GRUDecoder.mapLemmaFromCharIdx vm (sent.getD tokNum []))

/-- Model of `Tensor.view(size=(b, -1, L))` on the first axis for an evenly
divisible row count: `b` consecutive groups of `k` rows. -/
def viewRows {α : Type} (b k : Nat) (l : List α) : List (List α) :=
  (List.range b).map (fun i => (l.drop (i * k)).take k)

/-- Model of `GRUDecoder.postprocess` (model.py lines 363-374): arg-max over
the character logits, reshape `(b*s, chars)` to `(b, s, chars)` with
`s = batch.length / lengths.length` (the `-1` that `view` infers), and map
each sentence's first `lengths[i]` tokens to lemma strings. -/
def GRUDecoder.postprocess (vm : VocabMap) (batch : List (List (List ℚ)))
    (lengths : List Nat) : List (List String) :=
  ((viewRows lengths.length (batch.length / lengths.length)
      (batch.map (fun tok => tok.map argmaxIdx))).zip lengths).map
    (fun p => GRUDecoder.mapSentenceChars vm p.1 p.2)

theorem zip_getElem?_some {α β : Type} {l : List α} {l' : List β} {i : Nat}
    {a : α} {c : β} (h1 : l[i]? = some a) (h2 : l'[i]? = some c) :
    (l.zip l')[i]? = some (a, c) := by
  simp only [List.zip, List.getElem?_zipWith, h1, h2]

/-- Cutting the mapped character list at the first EOS symbol is the same as
taking indices up to the first EOS index, provided `i2w` identifies the EOS
symbol exactly at `EOS_ID`. -/
theorem take_findIdx_eq_takeWhile (vm : VocabMap)
    (hw : ∀ i, vm.i2w i = vm.EOS ↔ i = vm.EOS_ID) :
    ∀ l : List Nat,
      (if vm.EOS ∈ l.map vm.i2w
        then (l.map vm.i2w).take ((l.map vm.i2w).findIdx (fun s => decide (s = vm.EOS)))
        else l.map vm.i2w) =
      (l.takeWhile (fun c => decide (¬ c = vm.EOS_ID))).map vm.i2w := by
  intro l
  induction l with
  | nil => simp
  | cons c l ih =>
    by_cases hc : c = vm.EOS_ID
    · subst hc
      have heq : vm.i2w vm.EOS_ID = vm.EOS := (hw vm.EOS_ID).mpr rfl
      simp [heq, List.findIdx_cons, List.takeWhile_cons]
    · have hne : ¬ (vm.i2w c = vm.EOS) := fun h => hc ((hw c).mp h)
      by_cases hm : vm.EOS ∈ l.map vm.i2w
      · simp only [List.map_cons, List.mem_cons, hm, or_true, if_true, List.findIdx_cons,
          List.takeWhile_cons]
        have hpredf : (decide (vm.i2w c = vm.EOS)) = false := by
          simp [hne]
        have hpredt : (decide (¬ c = vm.EOS_ID)) = true := by
          simp [hc]
        rw [hpredf, hpredt]
        simp only [cond_false, List.take_succ_cons, List.map_cons]
        rw [if_pos hm] at ih
        rw [ih]
        simp
      · have hm' : ¬ (vm.EOS ∈ (vm.i2w c :: l.map vm.i2w)) := by
          intro hmem
          rcases List.mem_cons.mp hmem with h | h
          · exact hne h.symm
          · exact hm h
        simp only [List.map_cons]
        rw [if_neg hm']
        have hpredt : (decide (¬ c = vm.EOS_ID)) = true := by
          simp [hc]
        rw [List.takeWhile_cons, hpredt]
        simp only [List.map_cons]
        rw [if_neg hm] at ih
        rw [ih]
        simp

/-- The lemma mapping of `GRUDecoder.map_lemma_from_char_idx` is: drop the
PAD, UNK and SOS indices, truncate at the first EOS index (exclusively; when
no EOS occurs the whole filtered sequence is kept), and join the remaining
characters. -/
theorem mapLemma_spec (vm : VocabMap)
    (hw : ∀ i, vm.i2w i = vm.EOS ↔ i = vm.EOS_ID) (idxs : List Nat) :
    GRUDecoder.mapLemmaFromCharIdx vm idxs =
      String.join ((((idxs.filter
          (fun c => decide (¬ (c = vm.PAD_ID ∨ c = vm.UNK_ID ∨ c = vm.SOS_ID)))).takeWhile
        (fun c => decide (¬ c = vm.EOS_ID))).map vm.i2w)) := by
  have hfilter : (fun c : Nat => decide (¬ c ∈ illegalCharsOutput vm)) =
      (fun c : Nat => decide (¬ (c = vm.PAD_ID ∨ c = vm.UNK_ID ∨ c = vm.SOS_ID))) := by
    funext c
    simp only [decide_eq_decide, illegalCharsOutput, List.mem_cons, List.not_mem_nil,
      or_false]
    tauto
  simp only [GRUDecoder.mapLemmaFromCharIdx]
  rw [take_findIdx_eq_takeWhile vm hw (idxs.filter (fun c => decide (¬ c ∈ illegalCharsOutput vm)))]
  rw [hfilter]

/-- C4: for every sentence `si` and token `tj` within `lengths`, the
character-generation decoder's `postprocess` drops PAD, UNK and SOS indices,
truncates at the first EOS occurrence exclusively, and joins the remaining
characters into the predicted lemma; when no EOS occurs the filtered sequence
is returned untruncated (`takeWhile` keeps everything) instead of failing. -/
theorem gru_postprocess_spec (vm : VocabMap) (b s : Nat)
    (batch : List (List (List ℚ))) (lengths : List Nat)
    (hw : ∀ i, vm.i2w i = vm.EOS ↔ i = vm.EOS_ID)
    (hb : lengths.length = b) (hbs : batch.length = b * s)
    (hL : ∀ i, i < b → lengths.getD i 0 ≤ s) :
    ∀ si, si < b → ∀ tj, tj < lengths.getD si 0 →
      ((GRUDecoder.postprocess vm batch lengths).getD si []).getD tj "" =
        String.join (((((batch.getD (si * s + tj) []).map argmaxIdx).filter
            (fun c => decide (¬ (c = vm.PAD_ID ∨ c = vm.UNK_ID ∨ c = vm.SOS_ID)))).takeWhile
          (fun c => decide (¬ c = vm.EOS_ID))).map vm.i2w) := by
  intro si hsi tj htj
  have hb0 : 0 < b := Nat.lt_of_le_of_lt (Nat.zero_le si) hsi
  have hts : tj < s := lt_of_lt_of_le htj (hL si hsi)
  have hdiv : batch.length / lengths.length = s := by
    rw [hbs, hb]
    exact Nat.mul_div_cancel_left s hb0
  have hsl : si < lengths.length := by omega
  have hidx : si * s + tj < batch.length := by
    rw [hbs]
    have h2 : (si + 1) * s ≤ b * s := Nat.mul_le_mul_right s hsi
    have h3 : (si + 1) * s = si * s + s := by ring
    omega
  have htj' : tj < lengths[si] := by
    rwa [List.getD_eq_getElem lengths 0 hsl] at htj
  have hview : (viewRows lengths.length s (batch.map (fun tok => tok.map argmaxIdx)))[si]? =
      some (((batch.map (fun tok => tok.map argmaxIdx)).drop (si * s)).take s) := by
    unfold viewRows
    rw [List.getElem?_map, List.getElem?_range hsl]
    rfl
  have hcell : ((((batch.map (fun tok => tok.map argmaxIdx)).drop (si * s)).take s).getD tj []) =
      (batch.getD (si * s + tj) []).map argmaxIdx := by
    rw [List.getD_eq_getElem?_getD, List.getElem?_take, if_pos hts, List.getElem?_drop,
      List.getElem?_map, List.getElem?_eq_getElem hidx]
    simp only [Option.map_some', Option.getD_some]
    rw [List.getD_eq_getElem batch [] hidx]
  have houter : (GRUDecoder.postprocess vm batch lengths).getD si [] =
      GRUDecoder.mapSentenceChars vm
        (((batch.map (fun tok => tok.map argmaxIdx)).drop (si * s)).take s) lengths[si] := by
    unfold GRUDecoder.postprocess
    rw [hdiv, List.getD_eq_getElem?_getD, List.getElem?_map,
      zip_getElem?_some hview (List.getElem?_eq_getElem hsl)]
    simp only [Option.map_some', Option.getD_some]
  have hinner : (GRUDecoder.mapSentenceChars vm
      (((batch.map (fun tok => tok.map argmaxIdx)).drop (si * s)).take s) lengths[si]).getD tj "" =
      GRUDecoder.mapLemmaFromCharIdx vm ((batch.getD (si * s + tj) []).map argmaxIdx) := by
    unfold GRUDecoder.mapSentenceChars
    rw [List.getD_eq_getElem?_getD, List.getElem?_map, List.getElem?_range htj']
    simp only [Option.map_some', Option.getD_some]
    rw [hcell]
  rw [houter, hinner, mapLemma_spec vm hw]

/-- Witness for C4: one sentence of true length 1 within a 1-by-2 token grid;
the generated characters are EOS followed by PAD, so the lemma is empty. -/
theorem gru_postprocess_spec_witness :
    ((GRUDecoder.postprocess ⟨fun _ => 0, fun i => if i = 3 then "E" else "c", 0, 1, 2, 3, "E"⟩
        [[[0, 0, 0, 1], [1, 0, 0, 0]], [[0, 1, 0, 0], [0, 0, 1, 0]]] [1]).getD 0 []).getD 0 "" =
      String.join ((((([[[0, 0, 0, 1], [1, 0, 0, 0]], [[0, 1, 0, 0], [0, 0, 1, 0]]] :
          List (List (List ℚ))).getD (0 * 2 + 0) []).map argmaxIdx).filter
          (fun c => decide (¬ (c = 0 ∨ c = 1 ∨ c = 2)))).takeWhile
        (fun c => decide (¬ c = 3)) |>.map (fun i => if i = 3 then "E" else "c")) :=
  gru_postprocess_spec ⟨fun _ => 0, fun i => if i = 3 then "E" else "c", 0, 1, 2, 3, "E"⟩ 1 2
    [[[0, 0, 0, 1], [1, 0, 0, 0]], [[0, 1, 0, 0], [0, 0, 1, 0]]] [1]
    (by intro i; by_cases h : i = 3 <;> simp [h]) rfl rfl (by decide)
    0 (by decide) 0 (by decide)

/-- Modelled from the spec: the character preprocessing `map_to_chars_batch`
of `pos.data` is not under `src/`.  The spec fixes that preprocessing maps
raw symbols to padded index tensors with pad value 0 (section 4.2) and the
in-source callers in model.py fix the remaining layout: the per-token width
is the longest token plus one SOS and one EOS slot (comment at model.py line
547, "max_word_len_in_batch + 1 + 1"), `add_sos` defaults to true (line 380
disables it explicitly for the target lemmas only), and the first column of
the result holds "PAD or SOS" (comment at lines 391-392).  `tokenCore` is one
token's character-index sequence before padding. -/
def tokenCore (vm : VocabMap) (addSos addEos : Bool) (tok : String) : List Nat :=
  (if addSos then [vm.SOS_ID] else []) ++ tok.toList.map vm.w2i ++
    (if addEos then [vm.EOS_ID] else [])

/-- Modelled from the spec (see `tokenCore`): width of the character axis,
the longest token core in the batch. -/
def charWidth (vm : VocabMap) (addSos addEos : Bool) (sents : List (List String)) : Nat :=
  maxNat ((sents.flatten).map (fun t => (tokenCore vm addSos addEos t).length))

/-- Padded sentence length of a batch, `max(len(sentences))`. -/
def maxSentLen (sents : List (List String)) : Nat :=
  maxNat (sents.map List.length)

/-- Modelled from the spec (see `tokenCore`): `map_to_chars_batch` returns a
(batch * max_seq_len, max_word_len + SOS? + EOS?) index matrix, batch-first,
pad value 0; token slots beyond a sentence's length are all-PAD rows. -/
def mapToCharsBatch (vm : VocabMap) (sents : List (List String))
    (addSos addEos : Bool) : List (List Nat) :=
  (sents.map (fun s =>
    s.map (fun t => tokenCore vm addSos addEos t ++
      List.replicate (charWidth vm addSos addEos sents -
        (tokenCore vm addSos addEos t).length) vm.PAD_ID) ++
    List.replicate (maxSentLen sents - s.length)
      (List.replicate (charWidth vm addSos addEos sents) vm.PAD_ID))).flatten

/-- The batch dictionary slice that `GRUDecoder` reads: TOKENS always, and
TARGET_LEMMAS when `add_targets` found gold lemmas (`none` at inference). -/
structure LemmaBatch where
  tokens : List (List String)
  targetLemmas : Option (List (List Nat))

/-- Model of `GRUDecoder._get_char_input_next_timestep` (model.py lines
383-399).  `draw` is the `random.random()` sample of this call (Python only
draws when targets are present; threading the value unconditionally is
observationally equal).  On the first timestep (no previous predictions) the
input is column 0 of `map_to_chars_batch(tokens)` with its defaults
(`add_sos`/`add_eos` true); the `getD` default models the out-of-range case
that torch indexing would reject. -/
def getCharInputNextTimestep (vm : VocabMap) (batch : LemmaBatch)
    (previousPredictions : Option (List (List (List ℚ))))
    (draw teacherForcing : ℚ) : List Nat :=
  match previousPredictions with
  | none => (mapToCharsBatch vm batch.tokens true true).map (fun row => row.getD 0 vm.PAD_ID)
  | some preds =>
    match batch.targetLemmas with
    | some tgt =>
      if draw < teacherForcing then
        tgt.map (fun row => row.getD ((preds.headD []).length - 1) vm.PAD_ID)
      else preds.map (fun row => argmaxIdx (row.getD ((preds.headD []).length - 1) []))
    | none => preds.map (fun row => argmaxIdx (row.getD ((preds.headD []).length - 1) []))

theorem getD_replicate_zero {α : Type} (w : Nat) (x : α) :
    (List.replicate w x).getD 0 x = x := by
  cases w <;> simp

/-- C2 counterexample: with characters a ↦ 4, b ↦ 5 and SOS = 2, the step-0
input for the single token "ab" is the SOS index 2, not the index 4 of the
token's first character, contradicting the claim that the decoder sees a
real character of the token at step 0. -/
theorem gru_step0_counterexample :
    getCharInputNextTimestep
        ⟨fun c => if c = 'a' then 4 else if c = 'b' then 5 else 1,
          fun _ => "", 0, 1, 2, 3, "E"⟩ ⟨[["ab"]], none⟩ none 0 0 = [2] ∧
    (fun c => if c = 'a' then (4 : Nat) else if c = 'b' then 5 else 1) 'a' = 4 ∧
    ((2 : Nat) ≠ 4) := by
  refine ⟨?_, by decide, by decide⟩
  decide

/-- C2 amended: at step 0 the character input column is the first column of
the token-character matrix, which is the SOS index for every real token slot
and the PAD index for every padding slot — a special start symbol, not a
character of the source token. -/
theorem gru_step0_sos_or_pad (vm : VocabMap) (tokens : List (List String))
    (tgt : Option (List (List Nat))) (draw tf : ℚ) :
    getCharInputNextTimestep vm ⟨tokens, tgt⟩ none draw tf =
      (tokens.map (fun s =>
        List.replicate s.length vm.SOS_ID ++
          List.replicate (maxSentLen tokens - s.length) vm.PAD_ID)).flatten := by
  simp only [getCharInputNextTimestep, mapToCharsBatch]
  rw [List.map_flatten, List.map_map]
  congr 1
  refine List.map_congr_left ?_
  intro s _
  simp only [Function.comp, List.map_append, List.map_map, List.map_replicate]
  congr 1
  · rw [← List.map_const s vm.SOS_ID]
    refine List.map_congr_left ?_
    intro t _
    simp [Function.comp, Function.const, tokenCore, List.cons_append, List.getD_cons_zero]
  · rw [getD_replicate_zero]

/-- The learned sub-modules of `GRUDecoder` (model.py lines 314-329), as
functions on one batch row: the character embedding lookup `nn.Embedding`,
the embedding dropout `nn.Dropout`, the GRU cell `nn.GRU` for one timestep
(input, hidden ↦ output, new hidden), and the logit projection `nn.Linear`
`fc_out`. -/
structure GRUNet where
  embChar : Nat → List ℚ
  dropEmb : List ℚ → List ℚ
  rnnCell : List ℚ → List ℚ → List ℚ × List ℚ
  fcOut : List ℚ → List ℚ

/-- The training loop body of `GRUDecoder.decode` (model.py lines 413-432),
iterating over target-character positions.  Each step queries
`_get_char_input_next_timestep`, embeds and dropouts the characters,
concatenates each row's embedding with its context vector, runs the GRU cell,
projects `cat(gru_in, output)` to logits, and appends the step's logit column
to the accumulated predictions (`None` before the first step). -/
def decodeLoop (net : GRUNet) (vm : VocabMap) (teacherForcing : ℚ)
    (batch : LemmaBatch) (context : List (List ℚ)) :
    Nat → List (List ℚ) → Option (List (List (List ℚ))) → List ℚ →
      Option (List (List (List ℚ)))
  | 0, _, preds, _ => preds
  | Nat.succ k, hidden, preds, draws =>
    let nextCharInput := getCharInputNextTimestep vm batch preds (draws.headD 1)
      teacherForcing
    let embChars := (nextCharInput.map net.embChar).map net.dropEmb
    let gruIn := List.zipWith (fun e c => e ++ c) embChars context
    let step := List.zipWith net.rnnCell gruIn hidden
    let prediction := List.zipWith (fun gi o => net.fcOut (gi ++ o)) gruIn
      (step.map Prod.fst)
    decodeLoop net vm teacherForcing batch context k (step.map Prod.snd)
      (match preds with
        | none => some (prediction.map (fun v => [v]))
        | some ps => some (List.zipWith (fun row v => row ++ [v]) ps prediction))
      draws.tail

/-- Model of `GRUDecoder.decode` (model.py lines 401-439).  The encoded
tensor (b, s, f) is flattened to per-token context rows; the initial hidden
state is the context itself (`context.reshape(1, N, H)`); when the batch
holds TARGET_LEMMAS the loop runs over the target character axis, otherwise
the `else: pass` branch leaves the predictions as Python `None`. -/
def GRUDecoder.decode (net : GRUNet) (vm : VocabMap) (teacherForcing : ℚ)
    (encoded : List (List (List ℚ))) (batch : LemmaBatch) (draws : List ℚ) :
    Option (List (List (List ℚ))) :=
  match batch.targetLemmas with
  | some tgt =>
    decodeLoop net vm teacherForcing batch encoded.flatten
      ((tgt.headD []).length) encoded.flatten none draws
  | none => none

/-- C7: at inference, when the batch holds no gold target lemmas, the
character decoder's `decode` produces no character predictions at all (the
decode-until-EOS loop is unimplemented; the Python function returns `None`). -/
theorem gru_decode_no_targets (net : GRUNet) (vm : VocabMap) (tf : ℚ)
    (encoded : List (List (List ℚ))) (tokens : List (List String))
    (draws : List ℚ) :
    GRUDecoder.decode net vm tf encoded ⟨tokens, none⟩ draws = none := rfl

theorem mem_zipWith {α β γ : Type} (f : α → β → γ) :
    ∀ (l : List α) (l' : List β) (c : γ), c ∈ List.zipWith f l l' →
      ∃ a b, a ∈ l ∧ b ∈ l' ∧ c = f a b := by
  intro l
  induction l with
  | nil => intro l' c h; simp at h
  | cons a l ih =>
    intro l' c h
    cases l' with
    | nil => simp at h
    | cons b l' =>
      rcases List.mem_cons.mp h with h1 | h1
      · exact ⟨a, b, List.mem_cons_self a l, List.mem_cons_self b l', h1⟩
      · rcases ih l' c h1 with ⟨x, y, hx, hy, hc⟩
        exact ⟨x, y, List.mem_cons_of_mem a hx, List.mem_cons_of_mem b hy, hc⟩

/-- Every row of the accumulated prediction tensor gains exactly one logit
vector per loop step. -/
theorem decodeLoop_row_lengths (net : GRUNet) (vm : VocabMap) (tf : ℚ)
    (batch : LemmaBatch) (context : List (List ℚ)) :
    ∀ (k : Nat) (hidden : List (List ℚ)) (preds : Option (List (List (List ℚ))))
      (draws : List ℚ) (j : Nat),
      (match preds with
        | none => j = 0
        | some ps => 0 < j ∧ ∀ row ∈ ps, row.length = j) →
      0 < k + j →
      ∃ ps, decodeLoop net vm tf batch context k hidden preds draws = some ps ∧
        ∀ row ∈ ps, row.length = k + j := by
  intro k
  induction k with
  | zero =>
    intro hidden preds draws j hinv hpos
    match preds with
    | none =>
      exfalso
      simp only [] at hinv
      omega
    | some ps =>
      refine ⟨ps, rfl, ?_⟩
      simpa using hinv.2
  | succ k ih =>
    intro hidden preds draws j hinv hpos
    match preds with
    | none =>
      have hj : j = 0 := hinv
      subst hj
      have hnext := ih (List.map Prod.snd (List.zipWith net.rnnCell
          (List.zipWith (fun e c => e ++ c)
            ((List.map net.embChar (getCharInputNextTimestep vm batch none
              (draws.headD 1) tf)).map net.dropEmb) context) hidden))
        (some (((List.zipWith (fun gi o => net.fcOut (gi ++ o))
          (List.zipWith (fun e c => e ++ c)
            ((List.map net.embChar (getCharInputNextTimestep vm batch none
              (draws.headD 1) tf)).map net.dropEmb) context)
          ((List.zipWith net.rnnCell
            (List.zipWith (fun e c => e ++ c)
              ((List.map net.embChar (getCharInputNextTimestep vm batch none
                (draws.headD 1) tf)).map net.dropEmb) context) hidden).map
            Prod.fst)).map (fun v => [v]))))
        draws.tail 1 ?_ (by omega)
      · rcases hnext with ⟨ps, hps, hlen⟩
        refine ⟨ps, ?_, ?_⟩
        · rw [← hps]
          rfl
        · intro row hrow
          have := hlen row hrow
          omega
      · refine ⟨Nat.one_pos, ?_⟩
        intro row hrow
        rcases List.mem_map.mp hrow with ⟨v, _, hv⟩
        simp [← hv]
    | some ps =>
      obtain ⟨hj, hrows⟩ := hinv
      have hnext := ih (List.map Prod.snd (List.zipWith net.rnnCell
          (List.zipWith (fun e c => e ++ c)
            ((List.map net.embChar (getCharInputNextTimestep vm batch (some ps)
              (draws.headD 1) tf)).map net.dropEmb) context) hidden))
        (some (List.zipWith (fun row v => row ++ [v]) ps
          (List.zipWith (fun gi o => net.fcOut (gi ++ o))
            (List.zipWith (fun e c => e ++ c)
              ((List.map net.embChar (getCharInputNextTimestep vm batch (some ps)
                (draws.headD 1) tf)).map net.dropEmb) context)
            ((List.zipWith net.rnnCell
              (List.zipWith (fun e c => e ++ c)
                ((List.map net.embChar (getCharInputNextTimestep vm batch (some ps)
                  (draws.headD 1) tf)).map net.dropEmb) context) hidden).map
              Prod.fst))))
        draws.tail (j + 1) ?_ (by omega)
      · rcases hnext with ⟨qs, hqs, hlen⟩
        refine ⟨qs, ?_, ?_⟩
        · rw [← hqs]
          rfl
        · intro row hrow
          have := hlen row hrow
          omega
      · refine ⟨by omega, ?_⟩
        intro row hrow
        rcases mem_zipWith _ _ _ _ hrow with ⟨r, v, hr, _, hrc⟩
        rw [hrc]
        simp [hrows r hr]

/-- C5: during training (gold target lemmas in the batch) `decode` runs
exactly max-target-length steps, emitting one logit vector per step in every
row of the prediction tensor; and at any step t > 0 the next input character
is the t-th target lemma character when the teacher-forcing draw fires
(`draw < teacher_forcing`), and otherwise the decoder's own arg-max
prediction from step t-1. -/
theorem gru_decode_training (net : GRUNet) (vm : VocabMap) (tf : ℚ)
    (encoded : List (List (List ℚ))) (tokens : List (List String))
    (tgt : List (List Nat)) (draws : List ℚ) (T : Nat)
    (hT : T = (tgt.headD []).length) (hpos : 0 < T) :
    (∃ ps, GRUDecoder.decode net vm tf encoded ⟨tokens, some tgt⟩ draws = some ps ∧
      ∀ row ∈ ps, row.length = T) ∧
    (∀ (preds : List (List (List ℚ))) (draw : ℚ) (t : Nat),
      (preds.headD []).length = t → 1 ≤ t →
      getCharInputNextTimestep vm ⟨tokens, some tgt⟩ (some preds) draw tf =
        if draw < tf then tgt.map (fun row => row.getD (t - 1) vm.PAD_ID)
        else preds.map (fun row => argmaxIdx (row.getD (t - 1) []))) := by
  subst hT
  constructor
  · have h := decodeLoop_row_lengths net vm tf ⟨tokens, some tgt⟩ encoded.flatten
      ((tgt.headD []).length) encoded.flatten none draws 0 rfl (by omega)
    rcases h with ⟨ps, hps, hlen⟩
    refine ⟨ps, hps, ?_⟩
    intro row hrow
    have := hlen row hrow
    omega
  · intro preds draw t ht h1
    subst ht
    rfl

/-- Witness for C5: one sentence with one token, gold lemma of two
characters, identity-style network stubs. -/
theorem gru_decode_training_witness :
    (∃ ps, GRUDecoder.decode ⟨fun _ => [0], fun v => v, fun g h => (g, h), fun v => v⟩
        ⟨fun _ => 0, fun _ => "", 0, 1, 2, 3, "E"⟩ 0 [[[1]]] ⟨[["a"]], some [[1, 2]]⟩ [] =
          some ps ∧
      ∀ row ∈ ps, row.length = 2) ∧
    (∀ (preds : List (List (List ℚ))) (draw : ℚ) (t : Nat),
      (preds.headD []).length = t → 1 ≤ t →
      getCharInputNextTimestep ⟨fun _ => 0, fun _ => "", 0, 1, 2, 3, "E"⟩
          ⟨[["a"]], some [[1, 2]]⟩ (some preds) draw 0 =
        if draw < 0 then ([[1, 2]] : List (List Nat)).map (fun row => row.getD (t - 1) 0)
        else preds.map (fun row => argmaxIdx (row.getD (t - 1) []))) :=
  gru_decode_training ⟨fun _ => [0], fun v => v, fun g h => (g, h), fun v => v⟩
    ⟨fun _ => 0, fun _ => "", 0, 1, 2, 3, "E"⟩ 0 [[[1]]] [["a"]] [[1, 2]] [] 2
    rfl (by decide)

/-- Sum of squares of one feature vector, `torch.pow(x, 2).sum(dim=2)` for a
single timestep. -/
def sumSq (v : List ℚ) : ℚ := (v.map (fun x => x * x)).sum

/-- Number of elements of a 3-d tensor, `Tensor.numel()`. -/
def numel3 (t : List (List (List ℚ))) : Nat :=
  (t.map (fun s => (s.map List.length).sum)).sum

/-- Truthiness of a torch tensor (`Tensor.__bool__`): defined only for
one-element tensors, where it is whether the element is nonzero; any other
tensor raises `RuntimeError: Boolean value of Tensor with more than one
element is ambiguous`. -/
def tensorBool (t : List (List (List ℚ))) : Except String Bool :=
  if numel3 t = 1 then
    Except.ok (decide (¬ t.flatten.flatten.headD 0 = 0))
  else
    Except.error "Boolean value of Tensor with more than one element is ambiguous"

/-- Model of `torch.cat(ts, dim=2)`: concatenate feature vectors pointwise
per (sentence, token) cell.  The call sites guarantee a nonempty list of
tensors of matching leading shape. -/
def catDim2 (ts : List (List (List (List ℚ)))) : List (List (List ℚ)) :=
  match ts with
  | [] => []
  | t :: rest =>
    rest.foldl (fun acc u => List.zipWith (List.zipWith (fun a c => a ++ c)) acc u) t

/-- One embedding module as the `Encoder` sees it (model.py lines 60-83): a
static output dimension, the `to_bilstm` routing flag, and the module's
forward pass from a raw sentence batch and true lengths to a (b, s, dim)
tensor. -/
structure EmbeddingM where
  outputDim : Nat
  toBilstm : Bool
  run : List (List String) → List Nat → List (List (List ℚ))

/-- The state that `Encoder.__init__` (model.py lines 497-543) builds: the
ordered embeddings, the configured BiLSTM (as the function applied to one
packed sequence of its input features, producing `2 * main_lstm_dim`
features per true timestep), the output dropout, and the computed
`output_dim`. -/
structure EncoderM where
  embeddings : List EmbeddingM
  mainLstmDim : Nat
  useBilstm : Bool
  outputDim : Nat
  runBilstmSeq : List (List ℚ) → List (List ℚ)
  outDropout : List (List (List ℚ)) → List (List (List ℚ))

/-- Whether an `Except` holds an error value. -/
def exceptIsError {ε α : Type} : Except ε α → Bool
  | Except.error _ => true
  | Except.ok _ => false

/-- Model of `Encoder.__init__` (model.py lines 497-543): `use_bilstm` is
`main_lstm_layers != 0`; the output dimension sums the non-routed embedding
dims, plus `2 * main_lstm_dim` when the BiLSTM is used; construction raises
`ValueError("Not using BiLSTM but Embedding is set to use BiLSTM")` when the
summed input dimension of the routed embeddings is nonzero (Python truthiness
of the int `bilstm_in_dim`) while `use_bilstm` is false.  The BiLSTM and
dropout sub-modules are passed in as functions (their weights are data). -/
def Encoder.init (embeddings : List EmbeddingM) (mainLstmDim mainLstmLayers : Nat)
    (runBilstmSeq : List (List ℚ) → List (List ℚ))
    (outDropout : List (List (List ℚ)) → List (List (List ℚ))) :
    Except String EncoderM :=
  let useBilstm := mainLstmLayers != 0
  let encoderOutDim := ((embeddings.filter (fun e => ¬ e.toBilstm)).map
    (fun e => e.outputDim)).sum
  let bilstmInDim := ((embeddings.filter (fun e => e.toBilstm)).map
    (fun e => e.outputDim)).sum
  if (bilstmInDim != 0) && !useBilstm then
    Except.error "Not using BiLSTM but Embedding is set to use BiLSTM"
  else
    Except.ok
      { embeddings := embeddings
        mainLstmDim := mainLstmDim
        useBilstm := useBilstm
        outputDim := encoderOutDim + (if useBilstm then 2 * mainLstmDim else 0)
        runBilstmSeq := runBilstmSeq
        outDropout := outDropout }

/-- Right-pad a sequence of feature vectors to `n` timesteps with `w`-wide
zero vectors (`pad_packed_sequence` zero-fills up to `max(lengths)`). -/
def padTo (n w : Nat) (s : List (List ℚ)) : List (List ℚ) :=
  s ++ List.replicate (n - s.length) (List.replicate w 0)

/-- Model of `Encoder.forward` (model.py lines 545-588): run every embedding,
concatenate the BiLSTM-routed group and the pass-through group, pack the
routed tensor by true lengths, run the BiLSTM, unpack (zero-padded to
`max(lengths)`), apply dropout, and combine with the pass-through group.
The final combination is Python `if embs:` — tensor truthiness — so when both
groups exist the call raises unless the pass-through tensor has exactly one
element (`tensorBool`).  Returns the Python value of `embs` (`none` models
Python `None`). -/
def Encoder.forward (e : EncoderM) (batch : List (List String)) (lengths : List Nat) :
    Except String (Option (List (List (List ℚ)))) :=
  let listToBilstm := (e.embeddings.filter (fun m => m.toBilstm)).map
    (fun m => m.run batch lengths)
  let embsToBilstm : Option (List (List (List ℚ))) :=
    if listToBilstm.isEmpty then none else some (catDim2 listToBilstm)
  let listEmbs := (e.embeddings.filter (fun m => ¬ m.toBilstm)).map
    (fun m => m.run batch lengths)
  let embs : Option (List (List (List ℚ))) :=
    if listEmbs.isEmpty then none else some (catDim2 listEmbs)
  match embsToBilstm with
  | some toB =>
    if e.useBilstm then
      let packed := (toB.zip lengths).map (fun p => p.1.take p.2)
      let bilstmOut := e.outDropout ((packed.map e.runBilstmSeq).map
        (padTo (maxNat lengths) (2 * e.mainLstmDim)))
      match embs with
      | none => Except.ok (some bilstmOut)
      | some t =>
        match tensorBool t with
        | Except.error msg => Except.error msg
        | Except.ok true => Except.ok (some (catDim2 [t, bilstmOut]))
        | Except.ok false => Except.ok (some bilstmOut)
    else Except.ok embs
  | none => Except.ok embs

/-- C1 (code bug): with one BiLSTM-routed and one pass-through embedding
configured (both 1-dimensional), construction succeeds with
`output_dim = 1 + 2`, but `forward` on a batch of one two-token sentence
raises the tensor-truthiness RuntimeError at `if embs:` instead of returning
the concatenated (1, 2, 3) tensor the claim promises. -/
def encoderC1 : EncoderM :=
  ⟨[⟨1, true, fun _ _ => [[[1], [1]]]⟩, ⟨1, false, fun _ _ => [[[1], [1]]]⟩],
    1, true, 1 + 2 * 1, fun s => s.map (fun _ => [0, 0]), fun t => t⟩

theorem encoder_forward_truthiness_crash :
    ∃ e, Encoder.init
        [⟨1, true, fun _ _ => [[[1], [1]]]⟩, ⟨1, false, fun _ _ => [[[1], [1]]]⟩]
        1 1 (fun s => s.map (fun _ => [0, 0])) (fun t => t) = Except.ok e ∧
      e.outputDim = 1 + 2 * 1 ∧
      Encoder.forward e [["a", "b"]] [2] =
        Except.error "Boolean value of Tensor with more than one element is ambiguous" := by
  refine ⟨encoderC1, ?_, rfl, ?_⟩
  · rfl
  · rfl

def routedEmb5 : EmbeddingM := ⟨5, true, fun _ _ => []⟩

/-- C6 counterexample: the claim says construction fails whenever a routed
embedding is configured and the recurrent layer is not "configured"
(hidden dim > 0 AND layer count > 0).  With hidden dim 0, layer count 1 and a
routed 5-dimensional embedding, the claimed equivalence demands an error, but
`Encoder.__init__` only tests `main_lstm_layers == 0` and succeeds. -/
theorem encoder_init_claim_counterexample :
    ¬ (∀ (embs : List EmbeddingM) (hdim layers : Nat)
        (rb : List (List ℚ) → List (List ℚ))
        (db : List (List (List ℚ)) → List (List (List ℚ))),
        ((∃ m ∈ embs, m.toBilstm = true) ∧ ¬ (0 < hdim ∧ 0 < layers)) ↔
          exceptIsError (Encoder.init embs hdim layers rb db) = true) := by
  intro hclaim
  have h := (hclaim [routedEmb5] 0 1 (fun s => s) (fun t => t)).mp
    ⟨⟨routedEmb5, List.mem_cons_self _ _, rfl⟩, by omega⟩
  exact absurd h (by decide)

/-- C6 amended: `Encoder.__init__` fails (with the ValueError standing for
the spec's ConfigurationError) if and only if the summed output dimension of
the embeddings routed to the shared BiLSTM is nonzero while the layer count
is 0; the hidden dimension is never validated.  The failure is raised by the
constructor itself, before any forward pass. -/
theorem encoder_init_error_iff (embs : List EmbeddingM) (hdim layers : Nat)
    (rb : List (List ℚ) → List (List ℚ))
    (db : List (List (List ℚ)) → List (List (List ℚ))) :
    exceptIsError (Encoder.init embs hdim layers rb db) = true ↔
      (¬ ((embs.filter (fun e => e.toBilstm)).map (fun e => e.outputDim)).sum = 0 ∧
        layers = 0) := by
  simp only [Encoder.init]
  split
  next h =>
    simp only [Bool.and_eq_true, bne_iff_ne, ne_eq, Bool.not_eq_true'] at h
    obtain ⟨h1, h2⟩ := h
    have hl : layers = 0 := by
      by_contra hl
      simp [hl] at h2
    simp [exceptIsError, h1, hl]
  next h =>
    simp only [exceptIsError]
    constructor
    · intro hfalse
      exact absurd hfalse (by simp)
    · intro hc
      exfalso
      refine h ?_
      simp only [Bool.and_eq_true, bne_iff_ne, ne_eq, Bool.not_eq_true']
      exact ⟨hc.1, by simp [hc.2]⟩

/-- Weight table of `nn.Embedding(num, dim, padding_idx)`: every row is
filled from the standard-normal sample `normalDraw`, except the padding row,
which torch resets to zero at construction. -/
def nnEmbeddingWeight (numEmbeddings embeddingDim paddingIdx : Nat)
    (normalDraw : Nat → Nat → ℚ) : List (List ℚ) :=
  (List.range numEmbeddings).map (fun i =>
    if i = paddingIdx then List.replicate embeddingDim 0
    else (List.range embeddingDim).map (fun j => normalDraw i j))

/-- Model of `ClassingWordEmbedding.__init__` (model.py lines 88-103): build
`nn.Embedding(len(vocab_map), dim, padding_idx)` and then overwrite the slice
`weight[1:, :]` with the Xavier-uniform sample `xavierDraw` ("Skip the first
index, should be zero"). -/
def classingWordEmbeddingWeight (vocabLen embeddingDim paddingIdx : Nat)
    (normalDraw xavierDraw : Nat → Nat → ℚ) : List (List ℚ) :=
  (nnEmbeddingWeight vocabLen embeddingDim paddingIdx normalDraw).enum.map
    (fun p => if 1 ≤ p.1 then (List.range embeddingDim).map (fun j => xavierDraw p.1 j)
      else p.2)

/-- C8: the trainable word embedding has one row per vocabulary entry; row 0
(the PAD row) is never randomly initialized and keeps the zero weight that
`padding_idx=0` gives it, and every other row is exactly the Xavier-uniform
sample, whose entries obey the Xavier bound `x^2 * (fan_in + fan_out) ≤ 6`
(fan_in = dim, fan_out = vocabLen - 1, gain 1). -/
theorem classing_word_embedding_init (vocabLen dim : Nat)
    (normalDraw xavierDraw : Nat → Nat → ℚ)
    (hbound : ∀ i j, xavierDraw i j * xavierDraw i j *
      ((dim : ℚ) + ((vocabLen - 1 : Nat) : ℚ)) ≤ 6)
    (hv : 0 < vocabLen) :
    (classingWordEmbeddingWeight vocabLen dim 0 normalDraw xavierDraw).length = vocabLen ∧
    (classingWordEmbeddingWeight vocabLen dim 0 normalDraw xavierDraw).getD 0 [] =
      List.replicate dim 0 ∧
    ∀ i, 1 ≤ i → i < vocabLen →
      (classingWordEmbeddingWeight vocabLen dim 0 normalDraw xavierDraw).getD i [] =
        (List.range dim).map (fun j => xavierDraw i j) ∧
      ∀ x ∈ (classingWordEmbeddingWeight vocabLen dim 0 normalDraw xavierDraw).getD i [],
        x * x * ((dim : ℚ) + ((vocabLen - 1 : Nat) : ℚ)) ≤ 6 := by
  have key : ∀ i, i < vocabLen →
      (classingWordEmbeddingWeight vocabLen dim 0 normalDraw xavierDraw).getD i [] =
        (if 1 ≤ i then (List.range dim).map (fun j => xavierDraw i j)
          else if i = 0 then List.replicate dim 0
          else (List.range dim).map (fun j => normalDraw i j)) := by
    intro i hi
    unfold classingWordEmbeddingWeight nnEmbeddingWeight
    rw [List.getD_eq_getElem?_getD, List.getElem?_map, List.getElem?_enum,
      List.getElem?_map, List.getElem?_range hi]
    rfl
  refine ⟨?_, ?_, ?_⟩
  · unfold classingWordEmbeddingWeight nnEmbeddingWeight
    simp
  · rw [key 0 hv]
    rfl
  · intro i h1 hi
    constructor
    · rw [key i hi, if_pos h1]
    · intro x hx
      rw [key i hi, if_pos h1] at hx
      rcases List.mem_map.mp hx with ⟨j, _, hj⟩
      rw [← hj]
      exact hbound i j

/-- Witness for C8: vocabulary of 3 symbols, dimension 2, constant draws. -/
theorem classing_word_embedding_init_witness :
    (classingWordEmbeddingWeight 3 2 0 (fun _ _ => 7) (fun _ _ => 1)).length = 3 ∧
    (classingWordEmbeddingWeight 3 2 0 (fun _ _ => 7) (fun _ _ => 1)).getD 0 [] =
      List.replicate 2 0 ∧
    ∀ i, 1 ≤ i → i < 3 →
      (classingWordEmbeddingWeight 3 2 0 (fun _ _ => 7) (fun _ _ => 1)).getD i [] =
        (List.range 2).map (fun _ => (1 : ℚ)) ∧
      ∀ x ∈ (classingWordEmbeddingWeight 3 2 0 (fun _ _ => 7) (fun _ _ => 1)).getD i [],
        x * x * ((2 : ℚ) + ((3 - 1 : Nat) : ℚ)) ≤ 6 :=
  classing_word_embedding_init 3 2 (fun _ _ => 7) (fun _ _ => 1)
    (by intro i j; norm_num) (by decide)

/-- The per-sequence lengths that `pos.model.pack_sequence` computes
(model.py lines 615-620): the number of timesteps whose squared feature sum
is nonzero. -/
def packLengths (x : List (List (List ℚ))) : List Nat :=
  x.map (fun seq => seq.countP (fun v => decide (¬ sumSq v = 0)))

/-- Model of `pack_padded_sequence(batch_first=True, enforce_sorted=False)`
at the data level: keep each sequence's first `lengths[i]` timesteps (the
PackedSequence's internal sorting is undone by `pad_packed_sequence`, so the
composition preserves batch order); torch raises when some length is 0. -/
def packPaddedSequence (x : List (List (List ℚ))) (lengths : List Nat) :
    Except String (List (List (List ℚ))) :=
  if 0 ∈ lengths then
    Except.error "Length of all samples has to be greater than 0"
  else
    Except.ok ((x.zip lengths).map (fun p => p.1.take p.2))

/-- Model of `pos.model.pack_sequence` (model.py lines 610-626): compute the
nonzero-timestep lengths and pack with them, returning the pair
`(packed, lengths)`. -/
def pack_sequence (x : List (List (List ℚ))) :
    Except String (List (List (List ℚ)) × List Nat) :=
  match packPaddedSequence x (packLengths x) with
  | Except.error e => Except.error e
  | Except.ok packed => Except.ok (packed, packLengths x)

/-- Model of `pos.model.unpack_sequence` = `pad_packed_sequence(
batch_first=True)[0]` (model.py lines 629-631): zero-pad every kept sequence
to the longest kept length. -/
def unpack_sequence (packed : List (List (List ℚ))) : List (List (List ℚ)) :=
  packed.map (padTo (maxNat (packed.map List.length))
    (((packed.headD []).headD []).length))

theorem sumSq_cons (a : ℚ) (v : List ℚ) : sumSq (a :: v) = a * a + sumSq v := by
  simp [sumSq]

theorem sumSq_nonneg (v : List ℚ) : 0 ≤ sumSq v := by
  induction v with
  | nil => simp [sumSq]
  | cons a v ih =>
    rw [sumSq_cons]
    exact add_nonneg (mul_self_nonneg a) ih

theorem sumSq_eq_zero_iff (v : List ℚ) : sumSq v = 0 ↔ ∀ q ∈ v, q = 0 := by
  induction v with
  | nil => simp [sumSq]
  | cons a v ih =>
    rw [sumSq_cons]
    constructor
    · intro h
      have ha : a * a = 0 := by nlinarith [sumSq_nonneg v, mul_self_nonneg a]
      have hv : sumSq v = 0 := by nlinarith [sumSq_nonneg v, mul_self_nonneg a]
      intro q hq
      rcases List.mem_cons.mp hq with h1 | h1
      · rw [h1]
        exact mul_self_eq_zero.mp ha
      · exact (ih.mp hv) q h1
    · intro h
      have ha : a = 0 := h a (List.mem_cons_self a v)
      have hv : sumSq v = 0 := ih.mpr (fun q hq => h q (List.mem_cons_of_mem a hq))
      rw [ha, hv]
      ring

theorem take_length_takeWhile {α : Type} (p : α → Bool) (l : List α) :
    l.take ((l.takeWhile p).length) = l.takeWhile p := by
  induction l with
  | nil => rfl
  | cons a l ih =>
    rw [List.takeWhile_cons]
    by_cases h : p a
    · simp [h, ih]
    · simp [h]

theorem countP_eq_length_takeWhile {α : Type} (p : α → Bool) (l : List α)
    (hpad : ∀ a ∈ l.dropWhile p, p a = false) :
    l.countP p = (l.takeWhile p).length := by
  conv_lhs => rw [← List.takeWhile_append_dropWhile p l]
  rw [List.countP_append]
  have h1 : (l.takeWhile p).countP p = (l.takeWhile p).length :=
    List.countP_eq_length.mpr (fun a ha => List.mem_takeWhile_imp ha)
  have h2 : (l.dropWhile p).countP p = 0 :=
    List.countP_eq_zero.mpr (fun a ha => by simp [hpad a ha])
  omega

theorem seq_reconstruct (f : Nat) (seq : List (List ℚ))
    (hw : ∀ v ∈ seq, v.length = f)
    (hpad : ∀ v ∈ seq.dropWhile (fun v => decide (¬ sumSq v = 0)), sumSq v = 0) :
    seq.takeWhile (fun v => decide (¬ sumSq v = 0)) ++
      List.replicate
        (seq.length - (seq.takeWhile (fun v => decide (¬ sumSq v = 0))).length)
        (List.replicate f 0) = seq := by
  have hdw : seq.dropWhile (fun v => decide (¬ sumSq v = 0)) =
      List.replicate ((seq.dropWhile (fun v => decide (¬ sumSq v = 0))).length)
        (List.replicate f 0) := by
    refine List.eq_replicate_of_mem ?_
    intro v hv
    have hz : sumSq v = 0 := hpad v hv
    have hv' : v ∈ seq :=
      (List.dropWhile_sublist (fun v => decide (¬ sumSq v = 0))).subset hv
    have hall : ∀ q ∈ v, q = 0 := (sumSq_eq_zero_iff v).mp hz
    have hlen : v.length = f := hw v hv'
    rw [← hlen]
    exact List.eq_replicate_of_mem hall
  have hlen2 :
      (seq.dropWhile (fun v => decide (¬ sumSq v = 0))).length =
        seq.length - (seq.takeWhile (fun v => decide (¬ sumSq v = 0))).length := by
    have hl := congrArg List.length
      (List.takeWhile_append_dropWhile (fun v => decide (¬ sumSq v = 0)) seq)
    rw [List.length_append] at hl
    omega
  rw [← hlen2, ← hdw]
  exact List.takeWhile_append_dropWhile (fun v => decide (¬ sumSq v = 0)) seq

theorem maxNat_cons (b : Nat) (l : List Nat) : maxNat (b :: l) = max b (maxNat l) := rfl

theorem le_maxNat (l : List Nat) (a : Nat) (ha : a ∈ l) : a ≤ maxNat l := by
  induction l with
  | nil => simp at ha
  | cons b l ih =>
    rw [maxNat_cons]
    rcases List.mem_cons.mp ha with h | h
    · omega
    · have := ih h
      omega

theorem maxNat_le (l : List Nat) (s : Nat) (h : ∀ a ∈ l, a ≤ s) : maxNat l ≤ s := by
  induction l with
  | nil => simp [maxNat]
  | cons b l ih =>
    rw [maxNat_cons]
    have hb := h b (List.mem_cons_self b l)
    have hl := ih (fun a ha => h a (List.mem_cons_of_mem b ha))
    omega

/-- C10 counterexample: `x = [[[1], [0]]]` is right-padded exactly at its
zero timestep and its only true timestep is nonzero, yet
`unpack_sequence (pack_sequence x).fst` is `[[[1]]]`, not `x`: unpacking only
pads to the longest true length, so the trailing all-pad timestep is lost. -/
theorem pack_unpack_counterexample :
    (∀ seq ∈ ([[[1], [0]]] : List (List (List ℚ))),
      ∀ v ∈ seq.dropWhile (fun v => decide (¬ sumSq v = 0)), sumSq v = 0) ∧
    (∀ seq ∈ ([[[1], [0]]] : List (List (List ℚ))),
      ∀ v ∈ seq.takeWhile (fun v => decide (¬ sumSq v = 0)), ¬ sumSq v = 0) ∧
    pack_sequence [[[1], [0]]] = Except.ok ([[[(1 : ℚ)]]], [1]) ∧
    unpack_sequence [[[(1 : ℚ)]]] ≠ [[[(1 : ℚ)], [0]]] := by
  have h1 : sumSq [(1 : ℚ)] = 1 := by norm_num [sumSq]
  have h0 : sumSq [(0 : ℚ)] = 0 := by norm_num [sumSq]
  have hdrop : List.dropWhile (fun v => decide (¬ sumSq v = 0)) [[(1 : ℚ)], [0]] =
      [[(0 : ℚ)]] := by
    simp [List.dropWhile_cons, h1, h0]
  have htake : List.takeWhile (fun v => decide (¬ sumSq v = 0)) [[(1 : ℚ)], [0]] =
      [[(1 : ℚ)]] := by
    simp [List.takeWhile_cons, h1, h0]
  have hlens : packLengths [[[1], [0]]] = [1] := by
    simp [packLengths, List.countP_cons, h1, h0]
  refine ⟨?_, ?_, ?_, ?_⟩
  · intro seq hseq v hv
    simp only [List.mem_singleton] at hseq
    subst hseq
    rw [hdrop] at hv
    simp only [List.mem_singleton] at hv
    rw [hv, h0]
  · intro seq hseq v hv
    simp only [List.mem_singleton] at hseq
    subst hseq
    rw [htake] at hv
    simp only [List.mem_singleton] at hv
    rw [hv, h1]
    norm_num
  · simp only [pack_sequence, packPaddedSequence, hlens]
    norm_num
  · intro heq
    have := congrArg (fun l => ((l.headD []).length)) heq
    simp [unpack_sequence, padTo, maxNat, List.headD] at this

/-- C10 amended: for a right-padded batch (each sequence is a run of nonzero
timesteps followed only by all-zero padding timesteps), the lengths computed
by `pack_sequence` equal the per-sequence counts of non-all-zero timesteps;
and provided additionally that every sequence keeps at least one true
timestep (else `pack_padded_sequence` rejects the zero length) and at least
one sequence has no padding (else unpacking pads only to the shorter maximal
true length), `unpack_sequence (pack_sequence x).fst = x`. -/
theorem pack_unpack_roundtrip (x : List (List (List ℚ))) (s f : Nat)
    (hrect : ∀ seq ∈ x, seq.length = s)
    (hwidth : ∀ seq ∈ x, ∀ v ∈ seq, v.length = f)
    (hpad : ∀ seq ∈ x, ∀ v ∈ seq.dropWhile (fun v => decide (¬ sumSq v = 0)), sumSq v = 0)
    (hpos : ∀ seq ∈ x, 0 < seq.countP (fun v => decide (¬ sumSq v = 0)))
    (hfull : ∃ seq ∈ x, seq.countP (fun v => decide (¬ sumSq v = 0)) = s) :
    packLengths x = x.map (fun seq => seq.countP (fun v => decide (¬ ∀ q ∈ v, q = 0))) ∧
    ∃ packed, pack_sequence x = Except.ok (packed, packLengths x) ∧
      unpack_sequence packed = x := by
  have hkey : ∀ seq ∈ x, seq.countP (fun v => decide (¬ sumSq v = 0)) =
      (seq.takeWhile (fun v => decide (¬ sumSq v = 0))).length := by
    intro seq hseq
    refine countP_eq_length_takeWhile _ _ ?_
    intro v hv
    have hz := hpad seq hseq v hv
    simp [hz]
  have htwle : ∀ seq : List (List ℚ),
      (seq.takeWhile (fun v => decide (¬ sumSq v = 0))).length ≤ seq.length := by
    intro seq
    have hl := congrArg List.length
      (List.takeWhile_append_dropWhile (fun v => decide (¬ sumSq v = 0)) seq)
    rw [List.length_append] at hl
    omega
  have h0 : ¬ (0 ∈ packLengths x) := by
    intro hmem
    unfold packLengths at hmem
    rcases List.mem_map.mp hmem with ⟨seq, hseq, hc⟩
    have := hpos seq hseq
    omega
  have hzipmap : x.zip (packLengths x) =
      x.map (fun seq => (seq, seq.countP (fun v => decide (¬ sumSq v = 0)))) := by
    unfold packLengths
    simpa using List.zip_map' id
      (fun seq : List (List ℚ) => seq.countP (fun v => decide (¬ sumSq v = 0))) x
  have hpacked : (x.zip (packLengths x)).map (fun p => p.1.take p.2) =
      x.map (fun seq => seq.takeWhile (fun v => decide (¬ sumSq v = 0))) := by
    rw [hzipmap, List.map_map]
    refine List.map_congr_left ?_
    intro seq hseq
    simp only [Function.comp]
    rw [hkey seq hseq, take_length_takeWhile]
  refine ⟨?_, ?_⟩
  · unfold packLengths
    refine List.map_congr_left ?_
    intro seq hseq
    refine List.countP_congr ?_
    intro v hv
    simp only [decide_eq_true_eq]
    exact not_congr (sumSq_eq_zero_iff v)
  · refine ⟨x.map (fun seq => seq.takeWhile (fun v => decide (¬ sumSq v = 0))), ?_, ?_⟩
    · unfold pack_sequence packPaddedSequence
      rw [if_neg h0, hpacked]
    · have hM : maxNat ((x.map (fun seq =>
          seq.takeWhile (fun v => decide (¬ sumSq v = 0)))).map List.length) = s := by
        rcases hfull with ⟨seq0, hseq0, hk0⟩
        have hmem : s ∈ (x.map (fun seq =>
            seq.takeWhile (fun v => decide (¬ sumSq v = 0)))).map List.length := by
          rw [List.map_map]
          refine List.mem_map.mpr ⟨seq0, hseq0, ?_⟩
          simp only [Function.comp]
          rw [← hkey seq0 hseq0]
          exact hk0
        have hall : ∀ a ∈ (x.map (fun seq =>
            seq.takeWhile (fun v => decide (¬ sumSq v = 0)))).map List.length, a ≤ s := by
          intro a ha
          rw [List.map_map] at ha
          rcases List.mem_map.mp ha with ⟨seq, hseq, hc⟩
          simp only [Function.comp] at hc
          rw [← hc]
          have := htwle seq
          rw [hrect seq hseq] at this
          exact this
        exact Nat.le_antisymm (maxNat_le _ s hall) (le_maxNat _ s hmem)
      rcases hfull with ⟨seq0, hseq0, hk0⟩
      cases x with
      | nil => simp at hseq0
      | cons a xs =>
        have hWne : seq0.takeWhile (fun v => decide (¬ sumSq v = 0)) ≠ [] →
            True := fun _ => trivial
        have hapos : 0 < (a.takeWhile (fun v => decide (¬ sumSq v = 0))).length := by
          have := hpos a (List.mem_cons_self a xs)
          rw [hkey a (List.mem_cons_self a xs)] at this
          exact this
        have hW : ((((a :: xs).map (fun seq =>
            seq.takeWhile (fun v => decide (¬ sumSq v = 0)))).headD []).headD []).length
              = f := by
          simp only [List.map_cons, List.headD_cons]
          cases htw : a.takeWhile (fun v => decide (¬ sumSq v = 0)) with
          | nil =>
            rw [htw] at hapos
            simp at hapos
          | cons v vs =>
            simp only [List.headD_cons]
            have hvmem : v ∈ a.takeWhile (fun v => decide (¬ sumSq v = 0)) := by
              rw [htw]
              exact List.mem_cons_self v vs
            have hva : v ∈ a :=
              (List.takeWhile_sublist (fun v => decide (¬ sumSq v = 0))).subset hvmem
            exact hwidth a (List.mem_cons_self a xs) v hva
        unfold unpack_sequence
        rw [hM, hW, List.map_map]
        have hid : ∀ seq ∈ (a :: xs),
            (padTo s f ∘ (fun seq =>
              seq.takeWhile (fun v => decide (¬ sumSq v = 0)))) seq = seq := by
          intro seq hseq
          simp only [Function.comp, padTo]
          have := seq_reconstruct f seq (hwidth seq hseq) (hpad seq hseq)
          rw [hrect seq hseq] at this
          exact this
        rw [List.map_congr_left hid]
        simp

/-- Witness for C10 (amended): one sequence of two nonzero timesteps, no
padding, feature width 1. -/
theorem pack_unpack_roundtrip_witness :
    packLengths [[[1], [2]]] =
      ([[[1], [2]]] : List (List (List ℚ))).map
        (fun seq => seq.countP (fun v => decide (¬ ∀ q ∈ v, q = 0))) ∧
    ∃ packed, pack_sequence [[[1], [2]]] = Except.ok (packed, packLengths [[[1], [2]]]) ∧
      unpack_sequence packed = [[[(1 : ℚ)], [2]]] := by
  have h1 : sumSq [(1 : ℚ)] = 1 := by norm_num [sumSq]
  have h2 : sumSq [(2 : ℚ)] = 4 := by norm_num [sumSq]
  have hd : List.dropWhile (fun v => decide (¬ sumSq v = 0)) [[(1 : ℚ)], [2]] = [] := by
    simp [List.dropWhile_cons, h1, h2]
  have hc : List.countP (fun v => decide (¬ sumSq v = 0)) [[(1 : ℚ)], [2]] = 2 := by
    simp [List.countP_cons, h1, h2]
  refine pack_unpack_roundtrip [[[1], [2]]] 2 1 ?_ ?_ ?_ ?_ ?_
  · intro seq hseq
    simp only [List.mem_singleton] at hseq
    subst hseq
    rfl
  · intro seq hseq v hv
    simp only [List.mem_singleton] at hseq
    subst hseq
    rcases List.mem_cons.mp hv with h | h
    · rw [h]
      rfl
    · simp only [List.mem_singleton] at h
      rw [h]
      rfl
  · intro seq hseq v hv
    simp only [List.mem_singleton] at hseq
    subst hseq
    rw [hd] at hv
    simp at hv
  · intro seq hseq
    simp only [List.mem_singleton] at hseq
    subst hseq
    rw [hc]
    omega
  · exact ⟨[[1], [2]], List.mem_singleton.mpr rfl, hc⟩
